import Mathlib

/-!
Verification of `pystan/_chains.pyx`: the effective sample size (ESS) and
split potential scale reduction (split R-hat) convergence diagnostics.

The Cython source computes with C `double`s.  All arithmetic performed by the
source on valid inputs is exact (no rounding is relevant to any claim), but
division by zero and the resulting NaN/infinity propagation and comparison
semantics are essential to the control flow, so doubles are modelled by the
type `DV` below: an exact rational together with the three IEEE special
values `+inf`, `-inf` and `NaN` (the two signed zeros are identified; no
computation in scope distinguishes them).
-/

set_option maxHeartbeats 1000000

namespace PyStanChains

/-- A double value: a finite (exact) rational, an infinity, or NaN. -/
inductive DV where
  | fin (q : ℚ)
  | pinf
  | ninf
  | nan
deriving DecidableEq, Repr

namespace DV

/-- IEEE addition on exact values: finite addition is exact, NaN propagates,
opposite infinities give NaN. -/
def add : DV → DV → DV
  | fin a, fin b => fin (a + b)
  | fin _, pinf => pinf
  | fin _, ninf => ninf
  | fin _, nan => nan
  | pinf, fin _ => pinf
  | pinf, pinf => pinf
  | pinf, ninf => nan
  | pinf, nan => nan
  | ninf, fin _ => ninf
  | ninf, pinf => nan
  | ninf, ninf => ninf
  | ninf, nan => nan
  | nan, _ => nan

/-- IEEE negation. -/
def neg : DV → DV
  | fin a => fin (-a)
  | pinf => ninf
  | ninf => pinf
  | nan => nan

/-- IEEE subtraction (exact values, so it agrees with adding the negation). -/
def sub (a b : DV) : DV := add a (neg b)

/-- IEEE multiplication: zero times an infinity is NaN, NaN propagates. -/
def mul : DV → DV → DV
  | fin a, fin b => fin (a * b)
  | fin a, pinf => if 0 < a then pinf else if a < 0 then ninf else nan
  | fin a, ninf => if 0 < a then ninf else if a < 0 then pinf else nan
  | fin _, nan => nan
  | pinf, fin b => if 0 < b then pinf else if b < 0 then ninf else nan
  | pinf, pinf => pinf
  | pinf, ninf => ninf
  | pinf, nan => nan
  | ninf, fin b => if 0 < b then ninf else if b < 0 then pinf else nan
  | ninf, pinf => ninf
  | ninf, ninf => pinf
  | ninf, nan => nan
  | nan, _ => nan

/-- IEEE division: `0/0 = NaN`, `q/0 = ±inf` for nonzero `q` (the zero
denominators arising in the source are positive zeros), `inf/inf = NaN`,
NaN propagates. -/
def div : DV → DV → DV
  | fin a, fin b =>
      if b = 0 then (if 0 < a then pinf else if a < 0 then ninf else nan)
      else fin (a / b)
  | fin _, pinf => fin 0
  | fin _, ninf => fin 0
  | fin _, nan => nan
  | pinf, fin b => if 0 ≤ b then pinf else ninf
  | pinf, pinf => nan
  | pinf, ninf => nan
  | pinf, nan => nan
  | ninf, fin b => if 0 ≤ b then ninf else pinf
  | ninf, pinf => nan
  | ninf, ninf => nan
  | ninf, nan => nan
  | nan, _ => nan

/-- The comparison `x >= 0` as evaluated on doubles: false on NaN. -/
def ge0 : DV → Bool
  | fin q => decide (0 ≤ q)
  | pinf => true
  | ninf => false
  | nan => false

/-- Models the external `libc.math.sqrt` primitive: NaN on NaN and on
negative arguments, `+inf` on `+inf`; on nonnegative finite arguments it is
exact whenever the argument is a perfect square (`Rat.sqrt` stands in for
the inexact general case, which no theorem below depends on). -/
def sqrt : DV → DV
  | fin q => if q < 0 then nan else fin (Rat.sqrt q)
  | pinf => pinf
  | ninf => nan
  | nan => nan

instance : Zero DV := ⟨DV.fin 0⟩

instance : Add DV := ⟨DV.add⟩

instance : Neg DV := ⟨DV.neg⟩

instance : Mul DV := ⟨DV.mul⟩

instance : Div DV := ⟨DV.div⟩

instance : Sub DV := ⟨DV.sub⟩

lemma add_comm' : ∀ a b : DV, add a b = add b a := by
  intro a b
  cases a <;> cases b <;> simp [add, add_comm]

lemma add_assoc' : ∀ a b c : DV, add (add a b) c = add a (add b c) := by
  intro a b c
  cases a <;> cases b <;> cases c <;> simp [add, add_assoc]

lemma zero_add' : ∀ a : DV, add (fin 0) a = a := by
  intro a
  cases a with
  | fin q => show fin (0 + q) = fin q; rw [zero_add]
  | pinf => rfl
  | ninf => rfl
  | nan => rfl

lemma add_zero' : ∀ a : DV, add a (fin 0) = a := by
  intro a
  cases a with
  | fin q => show fin (q + 0) = fin q; rw [add_zero]
  | pinf => rfl
  | ninf => rfl
  | nan => rfl

instance : AddCommMonoid DV where
  add := DV.add
  zero := DV.fin 0
  add_assoc := add_assoc'
  nsmul := nsmulRec
  zero_add := zero_add'
  add_zero := add_zero'
  add_comm := add_comm'
  nsmul_zero := fun _ => rfl
  nsmul_succ := fun _ _ => rfl

lemma add_def (a b : DV) : a + b = DV.add a b := rfl

lemma sub_def (a b : DV) : a - b = DV.sub a b := rfl

lemma mul_def (a b : DV) : a * b = DV.mul a b := rfl

lemma div_def (a b : DV) : a / b = DV.div a b := rfl

@[simp] lemma zero_def : (0 : DV) = DV.fin 0 := rfl

@[simp] lemma fin_add_fin (a b : ℚ) : fin a + fin b = fin (a + b) := rfl

@[simp] lemma fin_sub_fin (a b : ℚ) : fin a - fin b = fin (a - b) := by
  show sub (fin a) (fin b) = fin (a - b)
  show fin (a + -b) = fin (a - b)
  rw [← sub_eq_add_neg]

@[simp] lemma fin_mul_fin (a b : ℚ) : fin a * fin b = fin (a * b) := rfl

lemma fin_div_fin (a b : ℚ) (hb : b ≠ 0) : fin a / fin b = fin (a / b) := by
  show div (fin a) (fin b) = fin (a / b)
  simp [div, hb]

lemma fin_div_zero (a : ℚ) : fin a / fin 0 =
    (if 0 < a then pinf else if a < 0 then ninf else nan) := by
  show div (fin a) (fin 0) = _
  simp [div]

@[simp] lemma nan_add (a : DV) : nan + a = nan := rfl

@[simp] lemma add_nan (a : DV) : a + nan = nan := by cases a <;> rfl

@[simp] lemma nan_sub (a : DV) : nan - a = nan := by cases a <;> rfl

@[simp] lemma sub_nan (a : DV) : a - nan = nan := by cases a <;> rfl

@[simp] lemma nan_mul (a : DV) : nan * a = nan := rfl

@[simp] lemma mul_nan (a : DV) : a * nan = nan := by cases a <;> rfl

@[simp] lemma nan_div (a : DV) : nan / a = nan := rfl

@[simp] lemma div_nan (a : DV) : a / nan = nan := by cases a <;> rfl

@[simp] lemma sqrt_nan : sqrt nan = nan := rfl

@[simp] lemma ge0_fin (q : ℚ) : ge0 (fin q) = decide (0 ≤ q) := rfl

@[simp] lemma ge0_nan : ge0 nan = false := rfl

end DV

/-- Modelled from the spec: the external primitive `stan::math::sum` —
the sum of a vector of doubles (accumulated from zero). -/
def stanSum (xs : List DV) : DV := xs.foldl DV.add (DV.fin 0)

/-- Modelled from the spec: the external primitive `stan::math::mean` —
the sum divided by the length. -/
def stanMean (xs : List DV) : DV := stanSum xs / DV.fin (xs.length : ℚ)

/-- Modelled from the spec: the external primitive `stan::math::variance` —
unbiased sample variance, denominator `length - 1` (undefined for length 0). -/
def stanVariance (xs : List DV) : DV :=
  stanSum (xs.map fun x => (x - stanMean xs) * (x - stanMean xs)) /
    DV.fin ((xs.length - 1 : ℕ) : ℚ)

/-- Modelled from the spec: the external primitive
`stan::prob::autocovariance` — for an input of length `L`, the biased sample
autocovariance at lags `0 .. L-1`, each with denominator `L` (so lag 0 is the
population variance).  The input draws are finite, so the result is a list of
exact rationals. -/
def autocovariance (y : List ℚ) : List ℚ :=
  (List.range y.length).map fun t =>
    (((List.range (y.length - t)).map fun i =>
      (y.getD i 0 - y.sum / (y.length : ℚ)) * (y.getD (i + t) 0 - y.sum / (y.length : ℚ))).sum) /
      (y.length : ℚ)

/-- The simulation snapshot: chain count, per-chain total saved draw count,
per-chain warmup length, and per chain the list of draw sequences indexed by
parameter (`sim['samples'][k]['chains']` in insertion order). -/
structure Sim where
  chains : ℕ
  n_save : List ℕ
  warmup2 : List ℕ
  samples : List (List (List ℚ))
deriving DecidableEq, Repr

/-- `get_kept_samples`: the draws of chain `k`, parameter `n`, after
dropping the first `warmup2[k]` entries (the source copies
`nv[warmup2[k] + i]` for `i < nv.size() - warmup2[k]`). -/
def get_kept_samples (sim : Sim) (k n : ℕ) : List ℚ :=
  ((sim.samples.getD k []).getD n []).drop (sim.warmup2.getD k 0)

/-- `get_chain_mean`: sums `nv[warmup2[k] + i]` and divides by
`nv.size() - warmup2[k]`. -/
def get_chain_mean (sim : Sim) (k n : ℕ) : DV :=
  DV.fin ((((sim.samples.getD k []).getD n []).drop (sim.warmup2.getD k 0)).sum) /
    DV.fin ((((sim.samples.getD k []).getD n []).length - sim.warmup2.getD k 0 : ℕ) : ℚ)

/-- `ns_kept = [s - w for s, w in zip(sim['n_save'], sim['warmup2'])]`. -/
def ns_kept (sim : Sim) : List ℕ :=
  List.zipWith (fun s w => s - w) sim.n_save sim.warmup2

/-- Python `min` over a nonempty list (first element as the accumulator). -/
def listMin : List ℕ → ℕ
  | [] => 0
  | a :: rest => rest.foldl min a

/-- `n_samples = min(ns_kept)` in `effective_sample_size`. -/
def n_samplesESS (sim : Sim) : ℕ := listMin (ns_kept sim)

/-- The per-chain autocovariance sequences `acov` gathered by
`effective_sample_size` (each over the chain's own full kept samples). -/
def ess_acov (sim : Sim) (n : ℕ) : List (List ℚ) :=
  (List.range sim.chains).map fun k => autocovariance (get_kept_samples sim k n)

/-- The vector `chain_mean` of `effective_sample_size`. -/
def ess_chain_mean (sim : Sim) (n : ℕ) : List DV :=
  (List.range sim.chains).map fun k => get_chain_mean sim k n

/-- The vector `chain_var` of `effective_sample_size`:
`acov[chain][0] * n_kept / (n_kept - 1)` (the subtraction is on unsigned
integers; kept counts are at least 1 in scope). -/
def ess_chain_var (sim : Sim) (n : ℕ) : List DV :=
  (List.range sim.chains).map fun k =>
    DV.fin (((ess_acov sim n).getD k []).getD 0 0) *
      DV.fin (((ns_kept sim).getD k 0 : ℕ) : ℚ) /
      DV.fin ((((ns_kept sim).getD k 0 : ℕ) - 1 : ℕ) : ℚ)

/-- `mean_var = mean(chain_var)`. -/
def ess_mean_var (sim : Sim) (n : ℕ) : DV := stanMean (ess_chain_var sim n)

/-- `var_plus = mean_var*(n_samples-1)/n_samples`, plus `variance(chain_mean)`
when `m > 1`. -/
def ess_var_plus (sim : Sim) (n : ℕ) : DV :=
  let vp := ess_mean_var sim n * DV.fin ((n_samplesESS sim - 1 : ℕ) : ℚ) /
    DV.fin ((n_samplesESS sim : ℕ) : ℚ)
  if 1 < sim.chains then vp + stanVariance (ess_chain_mean sim n) else vp

/-- The value `rho_hat = 1 - (mean_var - mean(acov_t)) / var_plus` computed
in the scan of `effective_sample_size` at lag `t`. -/
def ess_rho_hat (sim : Sim) (n t : ℕ) : DV :=
  DV.fin 1 - (ess_mean_var sim n -
    stanMean ((List.range sim.chains).map fun k =>
      DV.fin (((ess_acov sim n).getD k []).getD t 0))) / ess_var_plus sim n

/-- The `while t < n_samples and rho_hat >= 0` loop: starting at lag `t` with
`fuel` remaining lags, push each `f t` that passes the `>= 0` test and stop at
the first one that fails it (NaN fails). -/
def essScan (f : ℕ → DV) : ℕ → ℕ → List DV
  | 0, _ => []
  | fuel + 1, t => if (f t).ge0 then f t :: essScan f fuel (t + 1) else []

/-- The vector `rho_hat_t` accumulated by `effective_sample_size`. -/
def ess_rho_hat_t (sim : Sim) (n : ℕ) : List DV :=
  essScan (ess_rho_hat sim n) (n_samplesESS sim) 0

/-- `effective_sample_size(sim, n)`: `ess = m*n_samples`, divided by
`1 + 2*sum(rho_hat_t)` when the accumulated vector is nonempty. -/
def effective_sample_size (sim : Sim) (n : ℕ) : DV :=
  let ess := DV.fin ((sim.chains * n_samplesESS sim : ℕ) : ℚ)
  if 0 < (ess_rho_hat_t sim n).length then
    ess / (DV.fin 1 + DV.fin 2 * stanSum (ess_rho_hat_t sim n))
  else ess

/-- `n_samples` as used by `split_potential_scale_reduction`: the minimum
kept count, decremented by 1 when odd. -/
def srhat_n_samples (sim : Sim) : ℕ :=
  if listMin (ns_kept sim) % 2 = 1 then listMin (ns_kept sim) - 1
  else listMin (ns_kept sim)

/-- The contiguous index range `[a, b)` of a sequence. -/
def listSlice (s : List ℚ) (a b : ℕ) : List ℚ := (s.take b).drop a

/-- The successive contents of the `split_chain` vector at each
`mean`/`variance` call.  The vector is cleared between the two halves of a
chain but NOT before the first half of the next chain, so the leftover
second half (`carry`) is prepended to each first half after the first
chain. -/
def splitChainsAux (firstHalf secondHalf : ℕ → List ℚ) :
    List ℕ → List ℚ → List (List ℚ)
  | [], _ => []
  | k :: ks, carry =>
    (carry ++ firstHalf k) :: secondHalf k ::
      splitChainsAux firstHalf secondHalf ks (secondHalf k)

/-- The pseudo-chains over which `split_potential_scale_reduction` takes its
half-means and half-variances, in push order. -/
def split_chains (sim : Sim) (n : ℕ) : List (List ℚ) :=
  splitChainsAux
    (fun k => listSlice (get_kept_samples sim k n) 0 (srhat_n_samples sim / 2))
    (fun k => listSlice (get_kept_samples sim k n) (srhat_n_samples sim / 2)
      (srhat_n_samples sim))
    (List.range sim.chains) []

/-- The vector `split_chain_mean`. -/
def split_chain_mean (sim : Sim) (n : ℕ) : List DV :=
  (split_chains sim n).map fun c => stanMean (c.map DV.fin)

/-- The vector `split_chain_var`. -/
def split_chain_var (sim : Sim) (n : ℕ) : List DV :=
  (split_chains sim n).map fun c => stanVariance (c.map DV.fin)

/-- `var_between = n_samples/2 * variance(split_chain_mean)`. -/
def srhat_var_between (sim : Sim) (n : ℕ) : DV :=
  DV.fin ((srhat_n_samples sim / 2 : ℕ) : ℚ) * stanVariance (split_chain_mean sim n)

/-- `var_within = mean(split_chain_var)`. -/
def srhat_var_within (sim : Sim) (n : ℕ) : DV :=
  stanMean (split_chain_var sim n)

/-- `split_potential_scale_reduction(sim, n)`:
`sqrt((var_between/var_within + n_samples/2 - 1)/(n_samples/2))`. -/
def split_potential_scale_reduction (sim : Sim) (n : ℕ) : DV :=
  DV.sqrt ((srhat_var_between sim n / srhat_var_within sim n +
    DV.fin ((srhat_n_samples sim / 2 : ℕ) : ℚ) - DV.fin 1) /
    DV.fin ((srhat_n_samples sim / 2 : ℕ) : ℚ))

/-- A valid simulation snapshot for parameter `n` (§3 of the spec): at least
one chain, the three per-chain lists of length `chains`, the parameter index
in range, each draw sequence of length `n_save[k]`, warmup within the saved
draws, and at least 2 kept draws per chain. -/
def Sim.Valid (sim : Sim) (n : ℕ) : Prop :=
  1 ≤ sim.chains ∧
  sim.n_save.length = sim.chains ∧
  sim.warmup2.length = sim.chains ∧
  sim.samples.length = sim.chains ∧
  ∀ k, k < sim.chains →
    n < (sim.samples.getD k []).length ∧
    ((sim.samples.getD k []).getD n []).length = sim.n_save.getD k 0 ∧
    sim.warmup2.getD k 0 ≤ sim.n_save.getD k 0 ∧
    2 ≤ sim.n_save.getD k 0 - sim.warmup2.getD k 0

instance (sim : Sim) (n : ℕ) : Decidable (sim.Valid n) := by
  unfold Sim.Valid
  infer_instance

/-!
Specification-side definitions.  These follow the spec's words (§4.3) over
exact rationals and are compared with the source-derived definitions above
in the refinement theorems below.
-/

/-- Follows the spec's words: unbiased sample variance of a list of
rationals, denominator `length - 1`. -/
def sampleVarQ (l : List ℚ) : ℚ :=
  ((l.map fun x => (x - l.sum / (l.length : ℚ)) * (x - l.sum / (l.length : ℚ))).sum) /
    ((l.length : ℚ) - 1)

/-- Follows the spec's words (§4.3 step 3):
`chain_var[k] = acov[k][0] * n_kept[k] / (n_kept[k] - 1)`. -/
def chainVarSpec (sim : Sim) (n k : ℕ) : ℚ :=
  (autocovariance (get_kept_samples sim k n)).getD 0 0 *
    ((ns_kept sim).getD k 0 : ℚ) / (((ns_kept sim).getD k 0 : ℚ) - 1)

/-- Follows the spec's words (§4.1): the arithmetic mean of the kept-sample
sequence of chain `k`. -/
def chainMeanSpec (sim : Sim) (n k : ℕ) : ℚ :=
  (get_kept_samples sim k n).sum / ((get_kept_samples sim k n).length : ℚ)

/-- The list of per-chain kept-sample means. -/
def chainMeansSpec (sim : Sim) (n : ℕ) : List ℚ :=
  (List.range sim.chains).map fun k => chainMeanSpec sim n k

/-- Follows the spec's words (§4.3 step 4): `mean_var = mean_k(chain_var[k])`. -/
def meanVarSpec (sim : Sim) (n : ℕ) : ℚ :=
  (((List.range sim.chains).map fun k => chainVarSpec sim n k).sum) / (sim.chains : ℚ)

/-- Follows the spec's words (§4.3 step 5):
`var_plus = mean_var*(N-1)/N`, plus the sample variance of the chain means
exactly when `m > 1`. -/
def varPlusSpec (sim : Sim) (n : ℕ) : ℚ :=
  meanVarSpec sim n * ((n_samplesESS sim : ℚ) - 1) / (n_samplesESS sim : ℚ) +
    (if 1 < sim.chains then sampleVarQ (chainMeansSpec sim n) else 0)

/-- Follows the spec's words (§4.3 step 6):
`rho_hat(t) = 1 - (mean_var - mean_k(acov[k][t])) / var_plus`. -/
def rhoHatSpec (sim : Sim) (n t : ℕ) : ℚ :=
  1 - (meanVarSpec sim n -
    (((List.range sim.chains).map fun k =>
      (autocovariance (get_kept_samples sim k n)).getD t 0).sum) / (sim.chains : ℚ)) /
    varPlusSpec sim n

/-- The rational-valued mirror of `essScan`: accumulate `f t` while it is
nonnegative, for at most `fuel` lags. -/
def essScanQ (f : ℕ → ℚ) : ℕ → ℕ → List ℚ
  | 0, _ => []
  | fuel + 1, t => if 0 ≤ f t then f t :: essScanQ f fuel (t + 1) else []

/-- Follows the spec's words (§4.3 step 7): the accumulated `rho_hat` values. -/
def rhoListSpec (sim : Sim) (n : ℕ) : List ℚ :=
  essScanQ (rhoHatSpec sim n) (n_samplesESS sim) 0

/-- Follows the spec's words (§4.3 step 8):
`ess = m*N / (1 + 2*sum(rho_hat_t))` (the nonempty-sum case). -/
def essSpec (sim : Sim) (n : ℕ) : ℚ :=
  ((sim.chains * n_samplesESS sim : ℕ) : ℚ) / (1 + 2 * (rhoListSpec sim n).sum)

/-!  Concrete simulation snapshots used by the witnesses and
counterexamples. -/

/-- Two chains of four saved draws each, no warmup. -/
def simTwoChain : Sim := ⟨2, [4, 4], [0, 0], [[[1, 2, 3, 4]], [[5, 6, 7, 8]]]⟩

/-- One chain whose four kept draws are all the constant 3. -/
def simConstOne : Sim := ⟨1, [4], [0], [[[3, 3, 3, 3]]]⟩

/-- One chain with exactly two kept draws. -/
def simTwoKept : Sim := ⟨1, [2], [0], [[[1, 2]]]⟩

/-- One chain with kept draws `[0, 1]`. -/
def simRamp : Sim := ⟨1, [2], [0], [[[0, 1]]]⟩

/-- The end-to-end example of §8: two chains, `n_save = [10, 10]`,
`warmup2 = [5, 5]`, kept draws `[1,2,3,4,5]` and `[5,4,3,2,1]`. -/
def simBDA : Sim :=
  ⟨2, [10, 10], [5, 5],
    [[[0, 0, 0, 0, 0, 1, 2, 3, 4, 5]], [[0, 0, 0, 0, 0, 5, 4, 3, 2, 1]]]⟩

/-- One chain with three kept draws. -/
def simThreeKept : Sim := ⟨1, [3], [0], [[[1, 2, 3]]]⟩

/-- One chain with seven kept draws (odd minimum kept length). -/
def simSeven : Sim := ⟨1, [7], [0], [[[1, 2, 3, 4, 5, 6, 7]]]⟩

/-!  Generic list lemmas about the embedding's primitives. -/

lemma stanSum_eq_sum (xs : List DV) : stanSum xs = xs.sum := by
  rw [List.sum_eq_foldl]; rfl

lemma sum_map_fin (l : List ℚ) : (l.map DV.fin).sum = DV.fin l.sum := by
  induction l with
  | nil => rfl
  | cons a t ih => simp [List.sum_cons, ih]

lemma stanSum_map_fin (l : List ℚ) : stanSum (l.map DV.fin) = DV.fin l.sum := by
  rw [stanSum_eq_sum, sum_map_fin]

lemma stanMean_map_fin (l : List ℚ) (h : l ≠ []) :
    stanMean (l.map DV.fin) = DV.fin (l.sum / (l.length : ℚ)) := by
  have hlen : (l.length : ℚ) ≠ 0 := by
    simpa using List.length_pos.mpr h |>.ne'
  rw [stanMean, stanSum_map_fin, List.length_map, DV.fin_div_fin _ _ hlen]

lemma stanVariance_map_fin (l : List ℚ) (h : 2 ≤ l.length) :
    stanVariance (l.map DV.fin) = DV.fin (sampleVarQ l) := by
  have hne : l ≠ [] := by
    intro hl; rw [hl] at h; simp at h
  have hmean := stanMean_map_fin l hne
  have h1 : 1 ≤ l.length := le_trans (by norm_num) h
  have hd : ((l.length - 1 : ℕ) : ℚ) = (l.length : ℚ) - 1 := by
    push_cast [h1]; ring
  have hmap : (l.map DV.fin).map (fun x => (x - stanMean (l.map DV.fin)) *
      (x - stanMean (l.map DV.fin))) =
      (l.map fun x => (x - l.sum / (l.length : ℚ)) *
        (x - l.sum / (l.length : ℚ))).map DV.fin := by
    rw [hmean, List.map_map, List.map_map]
    apply List.map_congr_left
    intro x _
    simp
  rcases Nat.exists_eq_add_of_le h with ⟨j, hj⟩
  have hdq : ((l.length : ℚ) - 1) ≠ 0 := by
    rw [hj]; push_cast; intro hc; nlinarith
  rw [stanVariance, hmap, stanSum_map_fin, List.length_map, hd, DV.fin_div_fin _ _ hdq]
  rfl

lemma stanSum_eq_nan_of_mem (xs : List DV) (h : DV.nan ∈ xs) : stanSum xs = DV.nan := by
  rw [stanSum_eq_sum]
  induction xs with
  | nil => simp at h
  | cons a t ih =>
    rcases List.mem_cons.mp h with ha | ht
    · rw [← ha, List.sum_cons]; simp
    · rw [List.sum_cons, ih ht]; simp

lemma stanVariance_fin_singleton (q : ℚ) : stanVariance [DV.fin q] = DV.nan := by
  have hm : stanMean [DV.fin q] = DV.fin q := by
    have h := stanMean_map_fin [q] (by simp)
    simpa using h
  rw [stanVariance, hm]
  have h1 : ([DV.fin q].map fun x => (x - DV.fin q) * (x - DV.fin q)) = [DV.fin 0] := by
    simp
  rw [h1]
  have h2 : stanSum [DV.fin 0] = DV.fin 0 := DV.zero_add' (DV.fin 0)
  rw [h2, show (([DV.fin q].length - 1 : ℕ) : ℚ) = 0 by simp, DV.fin_div_zero]
  norm_num

/-!  Lemmas about `listMin` (Python `min`). -/

lemma foldl_min_mem : ∀ (l : List ℕ) (a : ℕ), l.foldl min a ∈ a :: l := by
  intro l
  induction l with
  | nil => intro a; simp
  | cons b t ih =>
    intro a
    rw [List.foldl_cons]
    have h := ih (min a b)
    rcases List.mem_cons.mp h with h1 | h1
    · rw [h1]
      rcases Nat.le_total a b with hab | hab
      · rw [min_eq_left hab]; exact List.mem_cons_self _ _
      · rw [min_eq_right hab]
        exact List.mem_cons_of_mem _ (List.mem_cons_self _ _)
    · exact List.mem_cons_of_mem _ (List.mem_cons_of_mem _ h1)

lemma foldl_min_le_init : ∀ (l : List ℕ) (a : ℕ), l.foldl min a ≤ a := by
  intro l
  induction l with
  | nil => intro a; simp
  | cons b t ih =>
    intro a
    calc t.foldl min (min a b) ≤ min a b := ih (min a b)
      _ ≤ a := min_le_left _ _

lemma foldl_min_le : ∀ (l : List ℕ) (a x : ℕ), x ∈ a :: l → l.foldl min a ≤ x := by
  intro l
  induction l with
  | nil =>
    intro a x hx
    simp at hx
    simp [hx]
  | cons b t ih =>
    intro a x hx
    rcases List.mem_cons.mp hx with h1 | h1
    · subst h1
      calc t.foldl min (min x b) ≤ min x b := foldl_min_le_init t (min x b)
        _ ≤ x := min_le_left _ _
    · rcases List.mem_cons.mp h1 with h2 | h2
      · subst h2
        calc t.foldl min (min a x) ≤ min a x := foldl_min_le_init t (min a x)
          _ ≤ x := min_le_right _ _
      · exact ih (min a b) x (List.mem_cons_of_mem _ h2)

lemma listMin_mem (l : List ℕ) (h : l ≠ []) : listMin l ∈ l := by
  cases l with
  | nil => exact absurd rfl h
  | cons a t => exact foldl_min_mem t a

lemma listMin_le (l : List ℕ) (x : ℕ) (hx : x ∈ l) : listMin l ≤ x := by
  cases l with
  | nil => simp at hx
  | cons a t => exact foldl_min_le t a x hx

lemma listMin_perm {l l' : List ℕ} (h : l.Perm l') : listMin l = listMin l' := by
  rcases eq_or_ne l [] with hl | hl
  · subst hl
    have hl' : l' = [] := h.symm.eq_nil
    rw [hl']
  · have hl' : l' ≠ [] := by
      intro hc; subst hc; exact hl h.eq_nil
    apply le_antisymm
    · exact listMin_le l _ (h.mem_iff.mpr (listMin_mem l' hl'))
    · exact listMin_le l' _ (h.symm.mem_iff.mpr (listMin_mem l hl))

/-!  Bridging lemmas: under validity, the DV pipeline of
`effective_sample_size` computes the finite rational values given by the
spec-side formulas. -/

lemma getD_map_range {α : Type} (f : ℕ → α) {m k : ℕ} (hk : k < m) (d : α) :
    ((List.range m).map f).getD k d = f k := by
  have hlen : k < ((List.range m).map f).length := by simp [hk]
  rw [List.getD_eq_getElem _ _ hlen, List.getElem_map, List.getElem_range]

lemma ns_kept_length {sim : Sim} {n : ℕ} (hv : sim.Valid n) :
    (ns_kept sim).length = sim.chains := by
  rw [ns_kept, List.length_zipWith, hv.2.1, hv.2.2.1]
  exact min_self _

lemma ns_kept_getD {sim : Sim} {n : ℕ} (hv : sim.Valid n) {k : ℕ} (hk : k < sim.chains) :
    (ns_kept sim).getD k 0 = sim.n_save.getD k 0 - sim.warmup2.getD k 0 := by
  have h1 : k < sim.n_save.length := by rw [hv.2.1]; exact hk
  have h2 : k < sim.warmup2.length := by rw [hv.2.2.1]; exact hk
  have hlen : k < (ns_kept sim).length := by rw [ns_kept_length hv]; exact hk
  rw [List.getD_eq_getElem _ _ hlen, List.getD_eq_getElem _ _ h1,
    List.getD_eq_getElem _ _ h2]
  exact List.getElem_zipWith

lemma two_le_ns_kept_getD {sim : Sim} {n : ℕ} (hv : sim.Valid n) {k : ℕ}
    (hk : k < sim.chains) : 2 ≤ (ns_kept sim).getD k 0 := by
  rw [ns_kept_getD hv hk]
  exact (hv.2.2.2.2 k hk).2.2.2

lemma kept_length {sim : Sim} {n : ℕ} (hv : sim.Valid n) {k : ℕ} (hk : k < sim.chains) :
    (get_kept_samples sim k n).length = (ns_kept sim).getD k 0 := by
  rw [get_kept_samples, List.length_drop, (hv.2.2.2.2 k hk).2.1, ns_kept_getD hv hk]

lemma ns_kept_ne_nil {sim : Sim} {n : ℕ} (hv : sim.Valid n) : ns_kept sim ≠ [] := by
  intro h
  have hl := ns_kept_length hv
  rw [h] at hl
  have h1 := hv.1
  simp at hl
  omega

lemma two_le_n_samplesESS {sim : Sim} {n : ℕ} (hv : sim.Valid n) :
    2 ≤ n_samplesESS sim := by
  have hmem := listMin_mem _ (ns_kept_ne_nil hv)
  rcases List.mem_iff_getElem.mp hmem with ⟨i, hi, hval⟩
  have hik : i < sim.chains := by rw [← ns_kept_length hv]; exact hi
  have h2 := two_le_ns_kept_getD hv hik
  rw [List.getD_eq_getElem _ _ hi] at h2
  rw [n_samplesESS, ← hval]
  exact h2

lemma n_samplesESS_le {sim : Sim} {n : ℕ} (hv : sim.Valid n) {k : ℕ}
    (hk : k < sim.chains) : n_samplesESS sim ≤ (ns_kept sim).getD k 0 := by
  apply listMin_le
  have hlen : k < (ns_kept sim).length := by rw [ns_kept_length hv]; exact hk
  rw [List.getD_eq_getElem _ _ hlen]
  exact List.getElem_mem _

lemma ess_acov_getD {sim : Sim} {n k : ℕ} (hk : k < sim.chains) :
    (ess_acov sim n).getD k [] = autocovariance (get_kept_samples sim k n) :=
  getD_map_range _ hk _

lemma ess_chain_var_eq {sim : Sim} {n : ℕ} (hv : sim.Valid n) :
    ess_chain_var sim n =
      (List.range sim.chains).map fun k => DV.fin (chainVarSpec sim n k) := by
  apply List.map_congr_left
  intro k hk
  have hkm : k < sim.chains := List.mem_range.mp hk
  have h2 := two_le_ns_kept_getD hv hkm
  have hcast : (((ns_kept sim).getD k 0 - 1 : ℕ) : ℚ) = ((ns_kept sim).getD k 0 : ℚ) - 1 := by
    have h1 : 1 ≤ (ns_kept sim).getD k 0 := by omega
    push_cast [h1]
    ring
  have hne : (((ns_kept sim).getD k 0 : ℚ) - 1) ≠ 0 := by
    have h2q : (2 : ℚ) ≤ ((ns_kept sim).getD k 0 : ℚ) := by exact_mod_cast h2
    intro hc
    nlinarith
  rw [ess_acov_getD hkm, DV.fin_mul_fin, hcast, DV.fin_div_fin _ _ hne, chainVarSpec]

lemma ess_chain_mean_eq {sim : Sim} {n : ℕ} (hv : sim.Valid n) :
    ess_chain_mean sim n = (chainMeansSpec sim n).map DV.fin := by
  rw [chainMeansSpec, List.map_map]
  apply List.map_congr_left
  intro k hk
  have hkm : k < sim.chains := List.mem_range.mp hk
  have hlen : (get_kept_samples sim k n).length =
      ((sim.samples.getD k []).getD n []).length - sim.warmup2.getD k 0 := by
    rw [get_kept_samples, List.length_drop]
  have h2 : 2 ≤ (get_kept_samples sim k n).length := by
    rw [kept_length hv hkm]; exact two_le_ns_kept_getD hv hkm
  have hne : ((get_kept_samples sim k n).length : ℚ) ≠ 0 := by
    have : (0 : ℚ) < ((get_kept_samples sim k n).length : ℚ) := by
      exact_mod_cast lt_of_lt_of_le (by norm_num) h2
    exact this.ne'
  rw [Function.comp]
  rw [get_chain_mean, ← hlen]
  have hsum : (((sim.samples.getD k []).getD n []).drop (sim.warmup2.getD k 0)).sum =
      (get_kept_samples sim k n).sum := rfl
  rw [hsum, DV.fin_div_fin _ _ hne, chainMeanSpec]

lemma ess_mean_var_eq {sim : Sim} {n : ℕ} (hv : sim.Valid n) :
    ess_mean_var sim n = DV.fin (meanVarSpec sim n) := by
  rw [ess_mean_var, ess_chain_var_eq hv,
    show ((List.range sim.chains).map fun k => DV.fin (chainVarSpec sim n k)) =
      ((List.range sim.chains).map fun k => chainVarSpec sim n k).map DV.fin by
        rw [List.map_map]; rfl]
  have hne : (List.range sim.chains).map (fun k => chainVarSpec sim n k) ≠ [] := by
    have h1 := hv.1
    intro hc
    have hlen := congrArg List.length hc
    simp at hlen
    omega
  rw [stanMean_map_fin _ hne, meanVarSpec]
  simp

lemma ess_var_plus_eq {sim : Sim} {n : ℕ} (hv : sim.Valid n) :
    ess_var_plus sim n = DV.fin (varPlusSpec sim n) := by
  have hN := two_le_n_samplesESS hv
  have hcast : ((n_samplesESS sim - 1 : ℕ) : ℚ) = (n_samplesESS sim : ℚ) - 1 := by
    have h1 : 1 ≤ n_samplesESS sim := by omega
    push_cast [h1]
    ring
  have hne : ((n_samplesESS sim : ℕ) : ℚ) ≠ 0 := by
    have : (0 : ℚ) < ((n_samplesESS sim : ℕ) : ℚ) := by exact_mod_cast lt_of_lt_of_le (by norm_num) hN
    exact this.ne'
  simp only [ess_var_plus]
  by_cases hm : 1 < sim.chains
  · rw [if_pos hm, ess_mean_var_eq hv, ess_chain_mean_eq hv]
    have hlen2 : 2 ≤ (chainMeansSpec sim n).length := by
      rw [chainMeansSpec]
      simp
      omega
    rw [stanVariance_map_fin _ hlen2, hcast,
      DV.fin_mul_fin, DV.fin_div_fin _ _ hne, DV.fin_add_fin, varPlusSpec, if_pos hm, sampleVarQ]
  · rw [if_neg hm, ess_mean_var_eq hv, hcast, DV.fin_mul_fin, DV.fin_div_fin _ _ hne,
      varPlusSpec, if_neg hm, add_zero]

lemma mean_acov_t_eq {sim : Sim} {n : ℕ} (hv : sim.Valid n) (t : ℕ) :
    stanMean ((List.range sim.chains).map fun k =>
        DV.fin (((ess_acov sim n).getD k []).getD t 0)) =
      DV.fin ((((List.range sim.chains).map fun k =>
        (autocovariance (get_kept_samples sim k n)).getD t 0).sum) / (sim.chains : ℚ)) := by
  rw [show ((List.range sim.chains).map fun k =>
      DV.fin (((ess_acov sim n).getD k []).getD t 0)) =
      ((List.range sim.chains).map fun k =>
        (autocovariance (get_kept_samples sim k n)).getD t 0).map DV.fin by
    rw [List.map_map]
    apply List.map_congr_left
    intro k hk
    rw [Function.comp, ess_acov_getD (List.mem_range.mp hk)]]
  have hne : (List.range sim.chains).map (fun k =>
      (autocovariance (get_kept_samples sim k n)).getD t 0) ≠ [] := by
    have h1 := hv.1
    intro hc
    have hlen := congrArg List.length hc
    simp at hlen
    omega
  rw [stanMean_map_fin _ hne]
  simp

lemma ess_rho_hat_eq {sim : Sim} {n : ℕ} (hv : sim.Valid n)
    (hvp : varPlusSpec sim n ≠ 0) (t : ℕ) :
    ess_rho_hat sim n t = DV.fin (rhoHatSpec sim n t) := by
  rw [ess_rho_hat, ess_mean_var_eq hv, mean_acov_t_eq hv t, ess_var_plus_eq hv,
    DV.fin_sub_fin, DV.fin_div_fin _ _ hvp, DV.fin_sub_fin, rhoHatSpec]

lemma essScan_map_fin (g : ℕ → ℚ) : ∀ (fuel t : ℕ),
    essScan (fun s => DV.fin (g s)) fuel t = (essScanQ g fuel t).map DV.fin := by
  intro fuel
  induction fuel with
  | zero => intro t; rfl
  | succ fuel ih =>
    intro t
    simp only [essScan, essScanQ, DV.ge0_fin]
    by_cases h : 0 ≤ g t
    · simp [h, ih]
    · simp [h]

lemma ess_rho_hat_t_eq {sim : Sim} {n : ℕ} (hv : sim.Valid n)
    (hvp : varPlusSpec sim n ≠ 0) :
    ess_rho_hat_t sim n = (rhoListSpec sim n).map DV.fin := by
  rw [ess_rho_hat_t, rhoListSpec,
    funext (ess_rho_hat_eq hv hvp), essScan_map_fin]

lemma essScanQ_forall_nonneg (g : ℕ → ℚ) : ∀ (fuel t : ℕ),
    ∀ x ∈ essScanQ g fuel t, 0 ≤ x := by
  intro fuel
  induction fuel with
  | zero => intro t x hx; simp [essScanQ] at hx
  | succ fuel ih =>
    intro t x hx
    rw [essScanQ] at hx
    by_cases h : 0 ≤ g t
    · rw [if_pos h] at hx
      rcases List.mem_cons.mp hx with h1 | h1
      · rw [h1]; exact h
      · exact ih (t + 1) x h1
    · rw [if_neg h] at hx
      simp at hx

lemma essScanQ_spec (g : ℕ → ℚ) : ∀ (fuel t0 : ℕ), ∃ s, s ≤ fuel ∧
    essScanQ g fuel t0 = (List.range' t0 s).map g ∧
    (∀ i, t0 ≤ i → i < t0 + s → 0 ≤ g i) ∧
    (s < fuel → g (t0 + s) < 0) := by
  intro fuel
  induction fuel with
  | zero =>
    intro t0
    exact ⟨0, le_refl 0, rfl, fun i h1 h2 => absurd h2 (by omega), fun h => absurd h (by omega)⟩
  | succ fuel ih =>
    intro t0
    by_cases h : 0 ≤ g t0
    · obtain ⟨s, hs, heq, hpos, hstop⟩ := ih (t0 + 1)
      refine ⟨s + 1, by omega, ?_, ?_, ?_⟩
      · rw [essScanQ, if_pos h, heq, List.range'_succ, List.map_cons]
      · intro i h1 h2
        rcases eq_or_lt_of_le h1 with he | hlt
        · rw [← he]; exact h
        · exact hpos i (by omega) (by omega)
      · intro hlt
        have hg := hstop (by omega)
        rw [show t0 + (s + 1) = (t0 + 1) + s by omega]
        exact hg
    · refine ⟨0, by omega, ?_, ?_, ?_⟩
      · rw [essScanQ, if_neg h]; rfl
      · intro i h1 h2; omega
      · intro _; rw [Nat.add_zero]; exact lt_of_not_ge h

/-!  Degenerate inputs: constant chains (claim C2) and too-few samples
(claim C3). -/

lemma replicate_getD_zero (L t : ℕ) : (List.replicate L (0 : ℚ)).getD t 0 = 0 := by
  by_cases h : t < L
  · rw [List.getD_eq_getElem _ _ (by simpa using h), List.getElem_replicate]
  · rw [List.getD_eq_default _ _ (by simpa using not_lt.mp h)]

lemma getD_replicate {α : Type} (a : α) {L t : ℕ} (h : t < L) (d : α) :
    (List.replicate L a).getD t d = a := by
  rw [List.getD_eq_getElem _ _ (by simpa using h), List.getElem_replicate]

lemma autocovariance_replicate (L : ℕ) (c : ℚ) :
    autocovariance (List.replicate L c) = List.replicate L 0 := by
  rcases Nat.eq_zero_or_pos L with h0 | hpos
  · subst h0; rfl
  · have hq : ((L : ℚ)) ≠ 0 := by exact_mod_cast (by omega : L ≠ 0)
    have hmu : (List.replicate L c).sum / ((List.replicate L c).length : ℚ) = c := by
      rw [List.sum_replicate, nsmul_eq_mul, List.length_replicate,
        mul_comm, mul_div_assoc, div_self hq, mul_one]
    unfold autocovariance
    rw [hmu, List.length_replicate]
    have hzero : ∀ t ∈ List.range L,
        (((List.range (L - t)).map fun i =>
          ((List.replicate L c).getD i 0 - c) *
            ((List.replicate L c).getD (i + t) 0 - c)).sum) / (L : ℚ) = (0 : ℚ) := by
      intro t ht
      have htL := List.mem_range.mp ht
      rw [List.sum_eq_zero, zero_div]
      intro x hx
      rcases List.mem_map.mp hx with ⟨j, hj, hjx⟩
      have hjL := List.mem_range.mp hj
      rw [← hjx, getD_replicate c (by omega) 0, getD_replicate c (by omega) 0]
      ring
    rw [List.map_congr_left hzero,
      show (fun _ => (0 : ℚ)) = Function.const ℕ (0 : ℚ) from rfl,
      List.map_const, List.length_range]

lemma splitChainsAux_length (f s : ℕ → List ℚ) :
    ∀ (ks : List ℕ) (carry : List ℚ),
      (splitChainsAux f s ks carry).length = 2 * ks.length := by
  intro ks
  induction ks with
  | nil => intro carry; rfl
  | cons k t ih =>
    intro carry
    rw [splitChainsAux]
    simp [ih]
    ring

lemma mem_splitChainsAux_replicate (c : ℚ) (hl hr : ℕ) (f s : ℕ → List ℚ) :
    ∀ (ks : List ℕ), (∀ k ∈ ks, f k = List.replicate hl c) →
      (∀ k ∈ ks, s k = List.replicate hr c) →
      ∀ (m0 : ℕ) (l : List ℚ), l ∈ splitChainsAux f s ks (List.replicate m0 c) →
      ∃ L, (1 ≤ hl → 1 ≤ hr → 1 ≤ L) ∧ l = List.replicate L c := by
  intro ks
  induction ks with
  | nil => intro _ _ m0 l hl'; simp [splitChainsAux] at hl'
  | cons k t ih =>
    intro hf hs m0 l hmem
    rw [splitChainsAux] at hmem
    rcases List.mem_cons.mp hmem with h1 | h1
    · refine ⟨m0 + hl, by omega, ?_⟩
      rw [h1, hf k (List.mem_cons_self k t), List.replicate_add]
    · rcases List.mem_cons.mp h1 with h2 | h2
      · exact ⟨hr, by omega, by rw [h2, hs k (List.mem_cons_self k t)]⟩
      · rw [hs k (List.mem_cons_self k t)] at h2
        exact ih (fun j hj => hf j (List.mem_cons_of_mem _ hj))
          (fun j hj => hs j (List.mem_cons_of_mem _ hj)) hr l h2

lemma sampleVarQ_replicate (L : ℕ) (c : ℚ) (hL : 1 ≤ L) :
    sampleVarQ (List.replicate L c) = 0 := by
  have hq : ((L : ℚ)) ≠ 0 := by exact_mod_cast (by omega : L ≠ 0)
  have hmu : (List.replicate L c).sum / ((List.replicate L c).length : ℚ) = c := by
    rw [List.sum_replicate, nsmul_eq_mul, List.length_replicate,
      mul_comm, mul_div_assoc, div_self hq, mul_one]
  rw [sampleVarQ, hmu]
  rw [List.sum_eq_zero]
  · simp
  · intro x hx
    rcases List.mem_map.mp hx with ⟨y, hy, hxy⟩
    have hyc : y = c := List.eq_of_mem_replicate hy
    rw [← hxy, hyc]
    ring

lemma stanMean_map_fin_replicate (c : ℚ) (L : ℕ) (hL : 1 ≤ L) :
    stanMean ((List.replicate L c).map DV.fin) = DV.fin c := by
  have hq : ((L : ℚ)) ≠ 0 := by exact_mod_cast (by omega : L ≠ 0)
  rw [stanMean_map_fin _ (by simp; omega)]
  rw [List.sum_replicate, nsmul_eq_mul, List.length_replicate,
    mul_comm, mul_div_assoc, div_self hq, mul_one]

lemma stanVariance_map_fin_replicate (c : ℚ) (L : ℕ) (hL : 1 ≤ L) :
    stanVariance ((List.replicate L c).map DV.fin) = DV.fin 0 ∨
      stanVariance ((List.replicate L c).map DV.fin) = DV.nan := by
  rcases Nat.lt_or_ge L 2 with h2 | h2
  · right
    have hL1 : L = 1 := by omega
    subst hL1
    show stanVariance [DV.fin c] = DV.nan
    exact stanVariance_fin_singleton c
  · left
    rw [stanVariance_map_fin _ (by simpa using h2), sampleVarQ_replicate L c hL]

lemma stanSum_zero_or_nan (xs : List DV)
    (h : ∀ x ∈ xs, x = DV.fin 0 ∨ x = DV.nan) :
    stanSum xs = DV.fin 0 ∨ stanSum xs = DV.nan := by
  rw [stanSum_eq_sum]
  induction xs with
  | nil => left; rfl
  | cons a t ih =>
    rw [List.sum_cons]
    rcases ih (fun x hx => h x (List.mem_cons_of_mem _ hx)) with hs | hs
    · rcases h a (List.mem_cons_self a t) with ha | ha
      · left; rw [ha, hs]; simp
      · right; rw [ha]; simp
    · right
      rw [hs]
      simp

/-- Core of claim C2: on a snapshot in which every chain's kept samples are
all the constant `c`, `effective_sample_size` divides by the zero `var_plus`,
the resulting NaN `rho_hat` fails the `>= 0` test, and the function falls
back to `m * n_samples`; no error is reported. -/
lemma constant_chains_ess {sim : Sim} {n : ℕ} (c : ℚ) (hv : sim.Valid n)
    (hc : ∀ k, k < sim.chains →
      get_kept_samples sim k n = List.replicate ((ns_kept sim).getD k 0) c) :
    varPlusSpec sim n = 0 ∧
    effective_sample_size sim n =
      DV.fin ((sim.chains * n_samplesESS sim : ℕ) : ℚ) := by
  have hacov : ∀ k, k < sim.chains → ∀ t,
      (autocovariance (get_kept_samples sim k n)).getD t 0 = 0 := by
    intro k hk t
    rw [hc k hk, autocovariance_replicate, replicate_getD_zero]
  have hcv : ∀ k, k < sim.chains → chainVarSpec sim n k = 0 := by
    intro k hk
    rw [chainVarSpec, hacov k hk 0]
    ring
  have hmv : meanVarSpec sim n = 0 := by
    rw [meanVarSpec, List.sum_eq_zero]
    · ring
    · intro x hx
      rcases List.mem_map.mp hx with ⟨k, hk, hkx⟩
      rw [← hkx, hcv k (List.mem_range.mp hk)]
  have hcm : ∀ k, k < sim.chains → chainMeanSpec sim n k = c := by
    intro k hk
    have h2 := two_le_ns_kept_getD hv hk
    have hq : (((ns_kept sim).getD k 0 : ℕ) : ℚ) ≠ 0 := by
      exact_mod_cast (by omega : (ns_kept sim).getD k 0 ≠ 0)
    rw [chainMeanSpec, hc k hk, List.sum_replicate, nsmul_eq_mul, List.length_replicate,
      mul_comm, mul_div_assoc, div_self hq, mul_one]
  have hmeans : chainMeansSpec sim n = List.replicate sim.chains c := by
    rw [chainMeansSpec]
    rw [List.map_congr_left (fun k hk => hcm k (List.mem_range.mp hk))]
    rw [show (fun _ => c) = Function.const ℕ c from rfl, List.map_const, List.length_range]
  have hvp : varPlusSpec sim n = 0 := by
    rw [varPlusSpec, hmv, hmeans]
    by_cases hm : 1 < sim.chains
    · rw [if_pos hm, sampleVarQ_replicate _ _ (by omega)]
      ring
    · rw [if_neg hm]
      ring
  have hrho : ∀ t, ess_rho_hat sim n t = DV.nan := by
    intro t
    rw [ess_rho_hat, ess_mean_var_eq hv, mean_acov_t_eq hv t, ess_var_plus_eq hv, hmv, hvp]
    have hsum0 : ((List.range sim.chains).map fun k =>
        (autocovariance (get_kept_samples sim k n)).getD t 0).sum = 0 := by
      apply List.sum_eq_zero
      intro x hx
      rcases List.mem_map.mp hx with ⟨k, hk, hkx⟩
      rw [← hkx, hacov k (List.mem_range.mp hk) t]
    rw [hsum0]
    rw [DV.fin_sub_fin]
    rw [show (0 : ℚ) - 0 / (sim.chains : ℚ) = 0 by ring]
    rw [DV.fin_div_zero]
    norm_num
  have hN2 := two_le_n_samplesESS hv
  rcases Nat.exists_eq_add_of_le hN2 with ⟨j, hj⟩
  have hscan : ess_rho_hat_t sim n = [] := by
    rw [ess_rho_hat_t, hj]
    rw [show 2 + j = (j + 1) + 1 by omega, essScan, hrho 0]
    simp
  refine ⟨hvp, ?_⟩
  rw [effective_sample_size, hscan]
  simp

/-- Core of claim C2 for split R-hat: on an all-constant snapshot every
pseudo-chain is constant, `var_between` is zero, `var_within` is zero or NaN
(NaN when a pseudo-chain is a singleton), and the result is NaN; no error is
reported. -/
lemma constant_chains_srhat {sim : Sim} {n : ℕ} (c : ℚ) (hv : sim.Valid n)
    (hc : ∀ k, k < sim.chains →
      get_kept_samples sim k n = List.replicate ((ns_kept sim).getD k 0) c) :
    split_potential_scale_reduction sim n = DV.nan := by
  set N := srhat_n_samples sim with hNdef
  have hN0 : 2 ≤ listMin (ns_kept sim) := two_le_n_samplesESS hv
  have hNeven : N % 2 = 0 := by
    rw [hNdef, srhat_n_samples]
    by_cases h : listMin (ns_kept sim) % 2 = 1
    · rw [if_pos h]; omega
    · rw [if_neg h]; omega
  have hN2 : 2 ≤ N := by
    rw [hNdef, srhat_n_samples]
    by_cases h : listMin (ns_kept sim) % 2 = 1
    · rw [if_pos h]; omega
    · rw [if_neg h]; omega
  have hNle : N ≤ listMin (ns_kept sim) := by
    rw [hNdef, srhat_n_samples]
    by_cases h : listMin (ns_kept sim) % 2 = 1
    · rw [if_pos h]; omega
    · rw [if_neg h]
  have hhalf1 : 1 ≤ N / 2 := by omega
  have hslice : ∀ k, k < sim.chains →
      (listSlice (get_kept_samples sim k n) 0 (N / 2) = List.replicate (N / 2) c ∧
       listSlice (get_kept_samples sim k n) (N / 2) N = List.replicate (N / 2) c) := by
    intro k hk
    have hnk : N ≤ (ns_kept sim).getD k 0 := le_trans hNle (n_samplesESS_le hv hk)
    constructor
    · rw [listSlice, hc k hk, List.take_replicate]
      rw [List.drop_zero]
      congr 1
      omega
    · rw [listSlice, hc k hk, List.take_replicate, List.drop_replicate]
      congr 1
      omega
  have hmem : ∀ l ∈ split_chains sim n, ∃ L, 1 ≤ L ∧ l = List.replicate L c := by
    intro l hl
    rw [split_chains] at hl
    have h0 : (List.replicate 0 c) = ([] : List ℚ) := rfl
    rw [← h0] at hl
    obtain ⟨L, hL1, hLeq⟩ := mem_splitChainsAux_replicate c (N / 2) (N / 2) _ _
      (List.range sim.chains)
      (fun k hk => (hslice k (List.mem_range.mp hk)).1)
      (fun k hk => (hslice k (List.mem_range.mp hk)).2) 0 l hl
    exact ⟨L, hL1 hhalf1 hhalf1, hLeq⟩
  have hlen : (split_chains sim n).length = 2 * sim.chains := by
    rw [split_chains, splitChainsAux_length, List.length_range]
  have hmeans : split_chain_mean sim n =
      List.replicate (2 * sim.chains) (DV.fin c) := by
    rw [split_chain_mean]
    have : ∀ l ∈ split_chains sim n,
        stanMean (l.map DV.fin) = DV.fin c := by
      intro l hl
      obtain ⟨L, hL1, hLeq⟩ := hmem l hl
      rw [hLeq]
      exact stanMean_map_fin_replicate c L hL1
    rw [List.map_congr_left this]
    rw [show (fun _ => DV.fin c) = Function.const (List ℚ) (DV.fin c) from rfl,
      List.map_const, hlen]
  have hvb : srhat_var_between sim n = DV.fin 0 := by
    rw [srhat_var_between, hmeans]
    have h2m : 2 ≤ 2 * sim.chains := by
      have := hv.1
      omega
    rw [show List.replicate (2 * sim.chains) (DV.fin c) =
        (List.replicate (2 * sim.chains) c).map DV.fin by rw [List.map_replicate]]
    rcases stanVariance_map_fin_replicate c (2 * sim.chains) (by omega) with h | h
    · rw [h]
      simp
    · rw [stanVariance_map_fin _ (by simpa using h2m), sampleVarQ_replicate _ _ (by omega)]
      simp
  have hvw : srhat_var_within sim n = DV.fin 0 ∨ srhat_var_within sim n = DV.nan := by
    rw [srhat_var_within, split_chain_var, stanMean]
    have hall : ∀ x ∈ (split_chains sim n).map fun l => stanVariance (l.map DV.fin),
        x = DV.fin 0 ∨ x = DV.nan := by
      intro x hx
      rcases List.mem_map.mp hx with ⟨l, hl, hlx⟩
      obtain ⟨L, hL1, hLeq⟩ := hmem l hl
      rw [← hlx, hLeq]
      exact stanVariance_map_fin_replicate c L hL1
    have hlen2 : (((split_chains sim n).map fun l =>
        stanVariance (l.map DV.fin)).length : ℚ) ≠ 0 := by
      rw [List.length_map, hlen]
      have := hv.1
      exact_mod_cast (by omega : 2 * sim.chains ≠ 0)
    rcases stanSum_zero_or_nan _ hall with hs | hs
    · left
      rw [hs, DV.fin_div_fin _ _ hlen2]
      congr 1
      exact zero_div _
    · right
      rw [hs]
      simp
  rw [split_potential_scale_reduction, hvb]
  rcases hvw with h | h
  · rw [h, DV.fin_div_zero]
    norm_num
  · rw [h]
    simp

/-- Core of claim C3: with a minimum kept length of 2 or 3 (below the
`N >= 4` precondition), `split_potential_scale_reduction` performs no check:
the singleton first half of chain 0 gets a `0/0 = NaN` variance (the
denominator is `length - 1 = 0`), NaN propagates, and NaN is returned. -/
lemma small_N_srhat_nan {sim : Sim} {n : ℕ} (hv : sim.Valid n)
    (hN : listMin (ns_kept sim) = 2 ∨ listMin (ns_kept sim) = 3) :
    split_potential_scale_reduction sim n = DV.nan := by
  have hN2 : srhat_n_samples sim = 2 := by
    rw [srhat_n_samples]
    rcases hN with h | h <;> rw [h] <;> norm_num
  have hm := hv.1
  have hk0 : (0 : ℕ) < sim.chains := by omega
  have hkept : 2 ≤ (get_kept_samples sim 0 n).length := by
    rw [kept_length hv hk0]
    exact two_le_ns_kept_getD hv hk0
  obtain ⟨q, rest, hqrest⟩ := List.exists_cons_of_ne_nil
    (show get_kept_samples sim 0 n ≠ [] by
      intro hcon
      rw [hcon] at hkept
      simp at hkept)
  have hfirst : listSlice (get_kept_samples sim 0 n) 0 (srhat_n_samples sim / 2) = [q] := by
    rw [hN2, listSlice, hqrest]
    rfl
  have hhead : [q] ∈ split_chains sim n := by
    rw [split_chains]
    obtain ⟨m', hm'⟩ := Nat.exists_eq_add_of_le hm
    rw [show sim.chains = m' + 1 by omega, List.range_succ_eq_map, splitChainsAux]
    rw [List.nil_append, hfirst]
    exact List.mem_cons_self _ _
  have hnanmem : DV.nan ∈ split_chain_var sim n := by
    rw [split_chain_var]
    have h1 : stanVariance ([q].map DV.fin) = DV.nan := by
      show stanVariance [DV.fin q] = DV.nan
      exact stanVariance_fin_singleton q
    rw [← h1]
    exact List.mem_map_of_mem _ hhead
  have hvw : srhat_var_within sim n = DV.nan := by
    rw [srhat_var_within, stanMean, stanSum_eq_nan_of_mem _ hnanmem]
    simp
  rw [split_potential_scale_reduction, hvw]
  simp

/-!  The lag-0 autocorrelation is nonnegative whenever `var_plus > 0`
(claim C6's salvageable part). -/

lemma acov0_nonneg (y : List ℚ) : 0 ≤ (autocovariance y).getD 0 0 := by
  rcases Nat.eq_zero_or_pos y.length with h0 | hpos
  · have hy : y = [] := List.length_eq_zero.mp h0
    subst hy
    norm_num [autocovariance]
  · unfold autocovariance
    rw [getD_map_range _ hpos]
    apply div_nonneg
    · apply List.sum_nonneg
      intro x hx
      rcases List.mem_map.mp hx with ⟨i, _, hix⟩
      rw [← hix]
      simp only [Nat.add_zero]
      exact mul_self_nonneg _
    · exact_mod_cast Nat.zero_le _

lemma sampleVarQ_nonneg (l : List ℚ) : 0 ≤ sampleVarQ l := by
  rcases Nat.eq_zero_or_pos l.length with h0 | hpos
  · have hl : l = [] := List.length_eq_zero.mp h0
    subst hl
    norm_num [sampleVarQ]
  · apply div_nonneg
    · apply List.sum_nonneg
      intro x hx
      rcases List.mem_map.mp hx with ⟨y, _, hyx⟩
      rw [← hyx]
      exact mul_self_nonneg _
    · have : (1 : ℚ) ≤ (l.length : ℚ) := by exact_mod_cast hpos
      linarith

lemma sum_map_sub (l : List ℕ) (f g : ℕ → ℚ) :
    (l.map fun k => f k - g k).sum = (l.map f).sum - (l.map g).sum := by
  induction l with
  | nil => simp
  | cons a t ih => simp [ih]; ring

/-- The salvageable part of claim C6: whenever `var_plus > 0`,
`rho_hat(0) >= 0` — though it is in general strictly below 1, since the
mean of the lag-0 autocovariances is smaller than the bias-corrected
`mean_var`. -/
lemma rho0_nonneg {sim : Sim} {n : ℕ} (hv : sim.Valid n)
    (hvp : 0 < varPlusSpec sim n) : 0 ≤ rhoHatSpec sim n 0 := by
  have hm : 0 < sim.chains := hv.1
  have hmq : (0 : ℚ) < (sim.chains : ℚ) := by exact_mod_cast hm
  have hN := two_le_n_samplesESS hv
  have hNq : (2 : ℚ) ≤ (n_samplesESS sim : ℚ) := by exact_mod_cast hN
  have hpoint : ∀ k ∈ List.range sim.chains,
      chainVarSpec sim n k - (autocovariance (get_kept_samples sim k n)).getD 0 0 ≤
        chainVarSpec sim n k * ((n_samplesESS sim : ℚ) - 1) / (n_samplesESS sim : ℚ) := by
    intro k hk
    have hkm : k < sim.chains := List.mem_range.mp hk
    have ha : 0 ≤ (autocovariance (get_kept_samples sim k n)).getD 0 0 := acov0_nonneg _
    have hnk2 : 2 ≤ (ns_kept sim).getD k 0 := two_le_ns_kept_getD hv hkm
    have hnkN : n_samplesESS sim ≤ (ns_kept sim).getD k 0 := n_samplesESS_le hv hkm
    have hnkq2 : (2 : ℚ) ≤ (((ns_kept sim).getD k 0 : ℕ) : ℚ) := by exact_mod_cast hnk2
    have hnkNq : ((n_samplesESS sim : ℕ) : ℚ) ≤ (((ns_kept sim).getD k 0 : ℕ) : ℚ) := by
      exact_mod_cast hnkN
    set a := (autocovariance (get_kept_samples sim k n)).getD 0 0 with hadef
    set nkq := (((ns_kept sim).getD k 0 : ℕ) : ℚ) with hnkdef
    set Nq := ((n_samplesESS sim : ℕ) : ℚ) with hNdef
    have hd : (0 : ℚ) < nkq - 1 := by linarith
    have hN0 : (0 : ℚ) < Nq := by linarith
    have hcv : chainVarSpec sim n k = a * nkq / (nkq - 1) := rfl
    rw [hcv]
    have lhs_eq : a * nkq / (nkq - 1) - a = a / (nkq - 1) := by
      field_simp
      ring
    rw [lhs_eq]
    have rhs_eq : a * nkq / (nkq - 1) * (Nq - 1) / Nq =
        a * nkq * (Nq - 1) / ((nkq - 1) * Nq) := by
      field_simp
    rw [rhs_eq, div_le_div_iff hd (mul_pos hd hN0)]
    nlinarith [mul_nonneg ha (sub_nonneg.mpr hnkNq), mul_nonneg ha (sub_nonneg.mpr hnkq2),
      mul_nonneg (mul_nonneg ha (sub_nonneg.mpr hnkNq)) (le_of_lt hN0),
      mul_nonneg (mul_nonneg ha (sub_nonneg.mpr hnkq2)) (sub_nonneg.mpr hNq)]
  have hsum := List.sum_le_sum hpoint
  rw [sum_map_sub] at hsum
  have hfac : ((List.range sim.chains).map fun k =>
      chainVarSpec sim n k * ((n_samplesESS sim : ℚ) - 1) / (n_samplesESS sim : ℚ)).sum =
      ((List.range sim.chains).map fun k => chainVarSpec sim n k).sum *
        ((n_samplesESS sim : ℚ) - 1) / (n_samplesESS sim : ℚ) := by
    rw [show (fun k => chainVarSpec sim n k * ((n_samplesESS sim : ℚ) - 1) /
        (n_samplesESS sim : ℚ)) = fun k => chainVarSpec sim n k *
          (((n_samplesESS sim : ℚ) - 1) / (n_samplesESS sim : ℚ)) from
      funext fun k => by rw [mul_div_assoc]]
    rw [List.sum_map_mul_right, mul_div_assoc]
  rw [hfac] at hsum
  have hkey : meanVarSpec sim n -
      (((List.range sim.chains).map fun k =>
        (autocovariance (get_kept_samples sim k n)).getD 0 0).sum) / (sim.chains : ℚ) ≤
      varPlusSpec sim n := by
    have hB : 0 ≤ (if 1 < sim.chains then sampleVarQ (chainMeansSpec sim n) else 0) := by
      by_cases h1 : 1 < sim.chains
      · rw [if_pos h1]; exact sampleVarQ_nonneg _
      · rw [if_neg h1]
    have hmain := div_le_div_of_nonneg_right hsum (le_of_lt hmq)
    have hl : (((List.range sim.chains).map fun k => chainVarSpec sim n k).sum -
        ((List.range sim.chains).map fun k =>
          (autocovariance (get_kept_samples sim k n)).getD 0 0).sum) / (sim.chains : ℚ) =
        meanVarSpec sim n - (((List.range sim.chains).map fun k =>
          (autocovariance (get_kept_samples sim k n)).getD 0 0).sum) / (sim.chains : ℚ) := by
      rw [meanVarSpec]
      ring
    have hr : ((List.range sim.chains).map fun k => chainVarSpec sim n k).sum *
        ((n_samplesESS sim : ℚ) - 1) / (n_samplesESS sim : ℚ) / (sim.chains : ℚ) =
        meanVarSpec sim n * ((n_samplesESS sim : ℚ) - 1) / (n_samplesESS sim : ℚ) := by
      rw [meanVarSpec]
      ring
    rw [hl, hr] at hmain
    rw [varPlusSpec]
    linarith
  rw [rhoHatSpec]
  have hfrac : (meanVarSpec sim n -
      (((List.range sim.chains).map fun k =>
        (autocovariance (get_kept_samples sim k n)).getD 0 0).sum) / (sim.chains : ℚ)) /
      varPlusSpec sim n ≤ 1 := (div_le_one hvp).mpr hkey
  linarith

lemma rhoList_ne_nil {sim : Sim} {n : ℕ} (hv : sim.Valid n)
    (hvp : 0 < varPlusSpec sim n) : rhoListSpec sim n ≠ [] := by
  have hr0 := rho0_nonneg hv hvp
  have hN := two_le_n_samplesESS hv
  rcases Nat.exists_eq_add_of_le hN with ⟨j, hj⟩
  rw [rhoListSpec, hj, show 2 + j = (j + 1) + 1 by omega, essScanQ, if_pos hr0]
  simp

/-!  Concrete evaluations on the §8 end-to-end example `simBDA`. -/

lemma kept_simBDA_0 : get_kept_samples simBDA 0 0 = [1, 2, 3, 4, 5] := by decide

lemma kept_simBDA_1 : get_kept_samples simBDA 1 0 = [5, 4, 3, 2, 1] := by decide

lemma acov0_simBDA_0 : (autocovariance (get_kept_samples simBDA 0 0)).getD 0 0 = 2 := by
  rw [kept_simBDA_0]
  norm_num [autocovariance, List.range_succ, List.getD_cons_zero, List.getD_cons_succ]

lemma acov0_simBDA_1 : (autocovariance (get_kept_samples simBDA 1 0)).getD 0 0 = 2 := by
  rw [kept_simBDA_1]
  norm_num [autocovariance, List.range_succ, List.getD_cons_zero, List.getD_cons_succ]

lemma chainVar_simBDA_0 : chainVarSpec simBDA 0 0 = 5 / 2 := by
  rw [chainVarSpec, acov0_simBDA_0, show (ns_kept simBDA).getD 0 0 = 5 by decide]
  norm_num

lemma chainVar_simBDA_1 : chainVarSpec simBDA 0 1 = 5 / 2 := by
  rw [chainVarSpec, acov0_simBDA_1, show (ns_kept simBDA).getD 1 0 = 5 by decide]
  norm_num

lemma meanVar_simBDA : meanVarSpec simBDA 0 = 5 / 2 := by
  rw [meanVarSpec, show List.range simBDA.chains = [0, 1] by decide,
    List.map_cons, List.map_cons, List.map_nil, List.sum_cons, List.sum_cons, List.sum_nil,
    chainVar_simBDA_0, chainVar_simBDA_1, show (simBDA.chains : ℚ) = 2 by norm_num [simBDA]]
  norm_num

lemma chainMean_simBDA_0 : chainMeanSpec simBDA 0 0 = 3 := by
  rw [chainMeanSpec, kept_simBDA_0]
  norm_num

lemma chainMean_simBDA_1 : chainMeanSpec simBDA 0 1 = 3 := by
  rw [chainMeanSpec, kept_simBDA_1]
  norm_num

lemma varPlusSpec_simBDA : varPlusSpec simBDA 0 = 2 := by
  rw [varPlusSpec, meanVar_simBDA, show n_samplesESS simBDA = 5 by decide,
    if_pos (show 1 < simBDA.chains by decide), chainMeansSpec,
    show List.range simBDA.chains = [0, 1] by decide,
    List.map_cons, List.map_cons, List.map_nil, chainMean_simBDA_0, chainMean_simBDA_1,
    sampleVarQ]
  norm_num

/-!  Concrete evaluations on the two-draw ramp `simRamp`. -/

lemma kept_simRamp : get_kept_samples simRamp 0 0 = [0, 1] := by decide

lemma acov0_simRamp : (autocovariance (get_kept_samples simRamp 0 0)).getD 0 0 = 1 / 4 := by
  rw [kept_simRamp]
  norm_num [autocovariance, List.range_succ, List.getD_cons_zero, List.getD_cons_succ]

lemma meanVar_simRamp : meanVarSpec simRamp 0 = 1 / 2 := by
  rw [meanVarSpec, show List.range simRamp.chains = [0] by decide,
    List.map_cons, List.map_nil, List.sum_cons, List.sum_nil,
    chainVarSpec, acov0_simRamp, show (ns_kept simRamp).getD 0 0 = 2 by decide,
    show (simRamp.chains : ℚ) = 1 by norm_num [simRamp]]
  norm_num

lemma varPlus_simRamp : varPlusSpec simRamp 0 = 1 / 4 := by
  rw [varPlusSpec, meanVar_simRamp, show n_samplesESS simRamp = 2 by decide,
    if_neg (show ¬ 1 < simRamp.chains by decide)]
  norm_num

lemma rho0_simRamp : rhoHatSpec simRamp 0 0 = 0 := by
  rw [rhoHatSpec, meanVar_simRamp, varPlus_simRamp,
    show List.range simRamp.chains = [0] by decide,
    List.map_cons, List.map_nil, List.sum_cons, List.sum_nil, acov0_simRamp,
    show (simRamp.chains : ℚ) = 1 by norm_num [simRamp]]
  norm_num

/-!  The claim theorems. -/

/-- Claim C1 (evidence of the code bug): on a valid two-chain input with
even common kept length `N = 4`, the `split_chain` vector is cleared between
the two halves of a chain but not before the next chain's first half, so the
third pseudo-chain is `[3, 4, 5, 6]` — chain 0's second half followed by
chain 1's first half, of length `N` rather than `N/2` — instead of chain 1's
first half `[5, 6]`. -/
theorem c1_pseudo_chain_structure :
    split_chains simTwoChain 0 = [[1, 2], [3, 4], [3, 4, 5, 6], [7, 8]] ∧
    ((split_chains simTwoChain 0).getD 2 []).length ≠ srhat_n_samples simTwoChain / 2 := by
  decide

/-- Claim C2 (amended): on a degenerate snapshot — every chain's kept draws
equal to one constant `c`, so `var_plus = 0` — neither function raises a
numeric-degeneracy error: `effective_sample_size` silently returns
`m * n_samples` (its NaN lag-0 autocorrelation fails the `>= 0` test, so the
scan is empty) and `split_potential_scale_reduction` silently returns NaN. -/
theorem c2_degenerate_no_error {sim : Sim} {n : ℕ} (c : ℚ) (hv : sim.Valid n)
    (hc : ∀ k, k < sim.chains →
      get_kept_samples sim k n = List.replicate ((ns_kept sim).getD k 0) c) :
    varPlusSpec sim n = 0 ∧
    effective_sample_size sim n = DV.fin ((sim.chains * n_samplesESS sim : ℕ) : ℚ) ∧
    split_potential_scale_reduction sim n = DV.nan :=
  ⟨(constant_chains_ess c hv hc).1, (constant_chains_ess c hv hc).2,
    constant_chains_srhat c hv hc⟩

/-- Claim C2 (counterexample to the claim as stated): a valid single-chain
snapshot with all kept draws equal to 3 — the claim's own degenerate
example — on which `effective_sample_size` returns 4 and
`split_potential_scale_reduction` returns NaN; no error is raised. -/
theorem c2_counterexample :
    simConstOne.Valid 0 ∧
    get_kept_samples simConstOne 0 0 = List.replicate ((ns_kept simConstOne).getD 0 0) 3 ∧
    effective_sample_size simConstOne 0 = DV.fin 4 ∧
    split_potential_scale_reduction simConstOne 0 = DV.nan := by
  have hc : ∀ k, k < simConstOne.chains → get_kept_samples simConstOne k 0 =
      List.replicate ((ns_kept simConstOne).getD k 0) 3 := by decide
  refine ⟨by decide, hc 0 (by decide), ?_, constant_chains_srhat 3 (by decide) hc⟩
  have h := (constant_chains_ess 3 (by decide) hc).2
  rw [h, show (simConstOne.chains * n_samplesESS simConstOne : ℕ) = 4 by decide]
  norm_num

theorem c2_witness :
    simConstOne.Valid 0 ∧
    (varPlusSpec simConstOne 0 = 0 ∧
     effective_sample_size simConstOne 0 =
       DV.fin ((simConstOne.chains * n_samplesESS simConstOne : ℕ) : ℚ) ∧
     split_potential_scale_reduction simConstOne 0 = DV.nan) :=
  ⟨by decide, c2_degenerate_no_error 3 (by decide) (by decide)⟩

/-- Claim C3 (amended): the code checks no sample-count precondition.  On a
valid snapshot whose minimum kept length is 2 or 3 (`N < 4`),
`split_potential_scale_reduction` computes anyway: the singleton half-chains
get `0/0 = NaN` variances and the function returns NaN instead of reporting
an insufficient-samples error. -/
theorem c3_small_N_no_error {sim : Sim} {n : ℕ} (hv : sim.Valid n)
    (hN : listMin (ns_kept sim) = 2 ∨ listMin (ns_kept sim) = 3) :
    split_potential_scale_reduction sim n = DV.nan :=
  small_N_srhat_nan hv hN

/-- Claim C3 (counterexample to the claim as stated): a valid snapshot with
exactly `N = 2 < 4` kept draws on which `split_potential_scale_reduction`
does not report an insufficient-samples error but computes NaN. -/
theorem c3_counterexample :
    simTwoKept.Valid 0 ∧ listMin (ns_kept simTwoKept) = 2 ∧
    split_potential_scale_reduction simTwoKept 0 = DV.nan :=
  ⟨by decide, by decide, small_N_srhat_nan (by decide) (Or.inl (by decide))⟩

theorem c3_witness :
    simThreeKept.Valid 0 ∧ split_potential_scale_reduction simThreeKept 0 = DV.nan :=
  ⟨by decide, c3_small_N_no_error (by decide) (Or.inr (by decide))⟩

/-- Claim C4: for a valid input with nondegenerate `var_plus` and a nonempty
accumulated `rho_hat` sum, `effective_sample_size` returns
`m * N / (1 + 2 * sum(rho_hat))`, where the intermediate quantities are
exactly the spec's formulas (`chainVarSpec`, `meanVarSpec`, `varPlusSpec`
with the between-chain variance added exactly when `m > 1`). -/
theorem c4_ess_value {sim : Sim} {n : ℕ} (hv : sim.Valid n)
    (hvp : varPlusSpec sim n ≠ 0) (hne : rhoListSpec sim n ≠ []) :
    effective_sample_size sim n = DV.fin (essSpec sim n) := by
  have hlist := ess_rho_hat_t_eq hv hvp
  have hlen : 0 < (ess_rho_hat_t sim n).length := by
    rw [hlist, List.length_map]
    exact List.length_pos.mpr hne
  have hnn : 0 ≤ (rhoListSpec sim n).sum :=
    List.sum_nonneg (fun x hx => essScanQ_forall_nonneg _ _ _ x hx)
  have hden : (1 + 2 * (rhoListSpec sim n).sum) ≠ 0 := by nlinarith
  simp only [effective_sample_size]
  rw [if_pos hlen, hlist, stanSum_map_fin, DV.fin_mul_fin, DV.fin_add_fin,
    DV.fin_div_fin _ _ hden, essSpec]

theorem c4_witness :
    simBDA.Valid 0 ∧ varPlusSpec simBDA 0 ≠ 0 ∧ rhoListSpec simBDA 0 ≠ [] ∧
    effective_sample_size simBDA 0 = DV.fin (essSpec simBDA 0) := by
  have hvp : varPlusSpec simBDA 0 ≠ 0 := by
    rw [varPlusSpec_simBDA]
    norm_num
  have hpos : 0 < varPlusSpec simBDA 0 := by
    rw [varPlusSpec_simBDA]
    norm_num
  have hne := rhoList_ne_nil (by decide) hpos
  exact ⟨by decide, hvp, hne, c4_ess_value (by decide) hvp hne⟩

/-- Claim C5: the accumulated `rho_hat` vector is exactly the lags
`0 .. s-1` for some `s ≤ N`: every accumulated lag has `rho_hat >= 0`, and
if the scan stopped before `N` then lag `s` — the first negative value — is
excluded; when no lag below `N` is negative the vector holds all lags
`0 .. N-1`. -/
theorem c5_truncation_rule {sim : Sim} {n : ℕ} (hv : sim.Valid n)
    (hvp : varPlusSpec sim n ≠ 0) :
    ∃ s, s ≤ n_samplesESS sim ∧
      ess_rho_hat_t sim n = (List.range s).map (fun t => DV.fin (rhoHatSpec sim n t)) ∧
      (∀ t, t < s → 0 ≤ rhoHatSpec sim n t) ∧
      (s < n_samplesESS sim → rhoHatSpec sim n s < 0) := by
  obtain ⟨s, h1, h2, h3, h4⟩ := essScanQ_spec (rhoHatSpec sim n) (n_samplesESS sim) 0
  refine ⟨s, h1, ?_, ?_, ?_⟩
  · rw [ess_rho_hat_t_eq hv hvp, rhoListSpec, h2, List.map_map, List.range_eq_range']
    rfl
  · intro t ht
    exact h3 t (by omega) (by omega)
  · intro h
    have h5 := h4 h
    rw [Nat.zero_add] at h5
    exact h5

theorem c5_witness :
    simBDA.Valid 0 ∧ varPlusSpec simBDA 0 ≠ 0 ∧
    (∃ s, s ≤ n_samplesESS simBDA ∧
      ess_rho_hat_t simBDA 0 = (List.range s).map (fun t => DV.fin (rhoHatSpec simBDA 0 t)) ∧
      (∀ t, t < s → 0 ≤ rhoHatSpec simBDA 0 t) ∧
      (s < n_samplesESS simBDA → rhoHatSpec simBDA 0 s < 0)) := by
  have hvp : varPlusSpec simBDA 0 ≠ 0 := by
    rw [varPlusSpec_simBDA]
    norm_num
  exact ⟨by decide, hvp, c5_truncation_rule (by decide) hvp⟩

/-- Claim C6 (amended): when `var_plus > 0` the lag-0 autocorrelation is
nonnegative — so the accumulated sum is never empty and the no-division
fallback is unreachable — but it is NOT equal to 1 in general, because the
mean over chains of `acov[k][0]` differs from the bias-corrected `mean_var`
by `mean_k(acov[k][0]/(n_kept[k]-1))`. -/
theorem c6_rho0_nonneg_scan_nonempty {sim : Sim} {n : ℕ} (hv : sim.Valid n)
    (hvp : 0 < varPlusSpec sim n) :
    0 ≤ rhoHatSpec sim n 0 ∧ ess_rho_hat_t sim n ≠ [] := by
  refine ⟨rho0_nonneg hv hvp, ?_⟩
  rw [ess_rho_hat_t_eq hv (ne_of_gt hvp)]
  intro hcon
  have hlen := congrArg List.length hcon
  rw [List.length_map] at hlen
  exact rhoList_ne_nil hv hvp (List.length_eq_zero.mp hlen)

/-- Claim C6 (counterexample to the claim as stated): a valid input with
`var_plus = 1/4 > 0` whose lag-0 autocorrelation is `0`, not `1`. -/
theorem c6_counterexample :
    simRamp.Valid 0 ∧ 0 < varPlusSpec simRamp 0 ∧
    ess_rho_hat simRamp 0 0 ≠ DV.fin 1 := by
  have hpos : 0 < varPlusSpec simRamp 0 := by
    rw [varPlus_simRamp]
    norm_num
  refine ⟨by decide, hpos, ?_⟩
  rw [ess_rho_hat_eq (by decide) (ne_of_gt hpos), rho0_simRamp]
  simp

theorem c6_witness :
    simBDA.Valid 0 ∧ 0 < varPlusSpec simBDA 0 ∧
    (0 ≤ rhoHatSpec simBDA 0 0 ∧ ess_rho_hat_t simBDA 0 ≠ []) := by
  have hpos : 0 < varPlusSpec simBDA 0 := by
    rw [varPlusSpec_simBDA]
    norm_num
  exact ⟨by decide, hpos, c6_rho0_nonneg_scan_nonempty (by decide) hpos⟩

/-- Claim C10: `get_chain_mean` (the inline summation loop) agrees with the
arithmetic mean — the `stan::math::mean` primitive — of the sequence
returned by `get_kept_samples` (the copy-then-aggregate path). -/
theorem c10_chain_mean_agrees (sim : Sim) (k n : ℕ)
    (h : 1 ≤ sim.n_save.getD k 0 - sim.warmup2.getD k 0) :
    get_chain_mean sim k n = stanMean ((get_kept_samples sim k n).map DV.fin) := by
  have h1 : (get_kept_samples sim k n).length =
      ((sim.samples.getD k []).getD n []).length - sim.warmup2.getD k 0 := by
    rw [get_kept_samples, List.length_drop]
  rw [get_chain_mean, stanMean, stanSum_map_fin, List.length_map, ← h1]
  rfl

theorem c10_witness :
    1 ≤ simBDA.n_save.getD 0 0 - simBDA.warmup2.getD 0 0 ∧
    get_chain_mean simBDA 0 0 = stanMean ((get_kept_samples simBDA 0 0).map DV.fin) :=
  ⟨by decide, c10_chain_mean_agrees simBDA 0 0 (by decide)⟩

/-!  Claim C7: odd minimum kept length versus explicit truncation. -/

/-- The same snapshot with every chain's draw sequences truncated so that at
most `t` kept draws remain per chain (the first `warmup2[k] + t` draws are
kept, and `n_save[k]` is capped accordingly). -/
def truncKept (sim : Sim) (t : ℕ) : Sim :=
  { chains := sim.chains
    n_save := List.zipWith (fun s w => min s (w + t)) sim.n_save sim.warmup2
    warmup2 := sim.warmup2
    samples := List.zipWith (fun ch w => ch.map fun d => d.take (w + t))
      sim.samples sim.warmup2 }

lemma getD_zipWith {α β γ : Type} (f : α → β → γ) (l1 : List α) (l2 : List β)
    {k : ℕ} (h1 : k < l1.length) (h2 : k < l2.length) (d : γ) (d1 : α) (d2 : β) :
    (List.zipWith f l1 l2).getD k d = f (l1.getD k d1) (l2.getD k d2) := by
  have hk : k < (List.zipWith f l1 l2).length := by
    rw [List.length_zipWith]
    exact lt_min h1 h2
  rw [List.getD_eq_getElem _ _ hk, List.getElem_zipWith,
    List.getD_eq_getElem _ _ h1, List.getD_eq_getElem _ _ h2]

lemma getD_map {α β : Type} (f : α → β) (l : List α) {k : ℕ} (h : k < l.length)
    (d : β) (d1 : α) : (l.map f).getD k d = f (l.getD k d1) := by
  have hk : k < (l.map f).length := by
    rw [List.length_map]
    exact h
  rw [List.getD_eq_getElem _ _ hk, List.getElem_map, List.getD_eq_getElem _ _ h]

lemma listMin_eq_of_all_eq (l : List ℕ) (c : ℕ) (hne : l ≠ [])
    (h : ∀ x ∈ l, x = c) : listMin l = c :=
  h _ (listMin_mem l hne)

lemma splitChainsAux_congr (f1 s1 f2 s2 : ℕ → List ℚ) :
    ∀ (ks : List ℕ), (∀ k ∈ ks, f1 k = f2 k) → (∀ k ∈ ks, s1 k = s2 k) →
      ∀ carry, splitChainsAux f1 s1 ks carry = splitChainsAux f2 s2 ks carry := by
  intro ks
  induction ks with
  | nil => intro _ _ carry; rfl
  | cons k t ih =>
    intro hf hs carry
    rw [splitChainsAux, splitChainsAux,
      hf k (List.mem_cons_self k t), hs k (List.mem_cons_self k t),
      ih (fun j hj => hf j (List.mem_cons_of_mem _ hj))
        (fun j hj => hs j (List.mem_cons_of_mem _ hj))]

lemma truncKept_kept {sim : Sim} {n : ℕ} (hv : sim.Valid n) (t : ℕ) {k : ℕ}
    (hk : k < sim.chains) :
    get_kept_samples (truncKept sim t) k n = (get_kept_samples sim k n).take t := by
  have hk1 : k < sim.samples.length := by rw [hv.2.2.2.1]; exact hk
  have hk2 : k < sim.warmup2.length := by rw [hv.2.2.1]; exact hk
  have hn : n < (sim.samples.getD k []).length := (hv.2.2.2.2 k hk).1
  rw [get_kept_samples, get_kept_samples]
  show ((((truncKept sim t).samples).getD k []).getD n []).drop
      (sim.warmup2.getD k 0) = _
  rw [show ((truncKept sim t).samples).getD k [] =
      (sim.samples.getD k []).map (fun d => d.take (sim.warmup2.getD k 0 + t)) from
    getD_zipWith _ _ _ hk1 hk2 _ _ _]
  rw [getD_map _ _ hn _ []]
  rw [List.drop_take]
  congr 1
  omega

lemma truncKept_ns_kept {sim : Sim} {n : ℕ} (hv : sim.Valid n) (t : ℕ) {k : ℕ}
    (hk : k < sim.chains) :
    (ns_kept (truncKept sim t)).getD k 0 = min ((ns_kept sim).getD k 0) t := by
  have hk1 : k < sim.n_save.length := by rw [hv.2.1]; exact hk
  have hk2 : k < sim.warmup2.length := by rw [hv.2.2.1]; exact hk
  have hk1' : k < (truncKept sim t).n_save.length := by
    show k < (List.zipWith _ sim.n_save sim.warmup2).length
    rw [List.length_zipWith]
    exact lt_min hk1 hk2
  rw [ns_kept]
  show (List.zipWith (fun s w => s - w) (truncKept sim t).n_save sim.warmup2).getD k 0 = _
  rw [getD_zipWith _ _ _ hk1' hk2 _ 0 0]
  rw [show (truncKept sim t).n_save.getD k 0 =
      min (sim.n_save.getD k 0) (sim.warmup2.getD k 0 + t) from
    getD_zipWith _ _ _ hk1 hk2 _ 0 0]
  rw [ns_kept_getD hv hk]
  have hw := (hv.2.2.2.2 k hk).2.2.1
  omega

lemma truncKept_ns_kept_length {sim : Sim} {n : ℕ} (hv : sim.Valid n) (t : ℕ) :
    (ns_kept (truncKept sim t)).length = sim.chains := by
  show (List.zipWith _ (List.zipWith _ sim.n_save sim.warmup2) sim.warmup2).length = _
  rw [List.length_zipWith, List.length_zipWith, hv.2.1, hv.2.2.1]
  omega

/-- Claim C7: when the minimum kept length `N` is odd, the split R-hat of
the snapshot equals the split R-hat of the snapshot explicitly truncated to
`N - 1` kept draws per chain: the odd `N` is decremented by exactly 1 before
halving, and only the first `N - 1` kept draws of each chain are read. -/
theorem c7_odd_truncation {sim : Sim} {n : ℕ} (hv : sim.Valid n)
    (hodd : listMin (ns_kept sim) % 2 = 1) :
    split_potential_scale_reduction sim n =
      split_potential_scale_reduction (truncKept sim (listMin (ns_kept sim) - 1)) n := by
  set N0 := listMin (ns_kept sim) with hN0
  set t := N0 - 1 with ht
  have hN0two : 2 ≤ N0 := two_le_n_samplesESS hv
  have hmin' : listMin (ns_kept (truncKept sim t)) = t := by
    apply listMin_eq_of_all_eq
    · intro hcon
      have hlen := congrArg List.length hcon
      rw [truncKept_ns_kept_length hv] at hlen
      have h1 := hv.1
      simp at hlen
      omega
    · intro x hx
      rcases List.mem_iff_getElem.mp hx with ⟨i, hi, hival⟩
      have hik : i < sim.chains := by
        rw [← truncKept_ns_kept_length hv t]
        exact hi
      rw [← hival, ← List.getD_eq_getElem _ 0 hi, truncKept_ns_kept hv t hik]
      have hle : N0 ≤ (ns_kept sim).getD i 0 := n_samplesESS_le hv hik
      omega
  have hsn' : srhat_n_samples (truncKept sim t) = t := by
    rw [srhat_n_samples, hmin', if_neg]
    omega
  have hsn : srhat_n_samples sim = t := by
    rw [srhat_n_samples, ← hN0, if_pos hodd]
  have hslice : ∀ k ∈ List.range sim.chains,
      (listSlice (get_kept_samples (truncKept sim t) k n) 0
          (srhat_n_samples (truncKept sim t) / 2) =
        listSlice (get_kept_samples sim k n) 0 (srhat_n_samples sim / 2)) ∧
      (listSlice (get_kept_samples (truncKept sim t) k n)
          (srhat_n_samples (truncKept sim t) / 2) (srhat_n_samples (truncKept sim t)) =
        listSlice (get_kept_samples sim k n) (srhat_n_samples sim / 2)
          (srhat_n_samples sim)) := by
    intro k hk
    have hkm : k < sim.chains := List.mem_range.mp hk
    rw [hsn', hsn, truncKept_kept hv t hkm]
    constructor
    · rw [listSlice, listSlice, List.take_take]
      congr 2
      omega
    · rw [listSlice, listSlice, List.take_take]
      congr 3
      omega
  have hchains : (truncKept sim t).chains = sim.chains := rfl
  have hsc : split_chains (truncKept sim t) n = split_chains sim n := by
    rw [split_chains, split_chains, hchains]
    exact splitChainsAux_congr _ _ _ _ (List.range sim.chains)
      (fun k hk => (hslice k hk).1) (fun k hk => (hslice k hk).2) []
  rw [split_potential_scale_reduction, split_potential_scale_reduction,
    srhat_var_between, srhat_var_between, srhat_var_within, srhat_var_within,
    split_chain_mean, split_chain_mean, split_chain_var, split_chain_var,
    hsc, hsn', hsn]

theorem c7_witness :
    simSeven.Valid 0 ∧ listMin (ns_kept simSeven) % 2 = 1 ∧
    split_potential_scale_reduction simSeven 0 =
      split_potential_scale_reduction (truncKept simSeven (listMin (ns_kept simSeven) - 1)) 0 :=
  ⟨by decide, by decide, c7_odd_truncation (by decide) (by decide)⟩

/-!  Claim C8: invariance of `effective_sample_size` under permutation of
the chains. -/

/-- The snapshot with the chain indices permuted by `σ`, applied
consistently to `n_save`, `warmup2` and the per-chain samples. -/
def permSim (sim : Sim) (σ : Equiv.Perm (Fin sim.chains)) : Sim :=
  { chains := sim.chains
    n_save := List.ofFn fun i => sim.n_save.getD (σ i) 0
    warmup2 := List.ofFn fun i => sim.warmup2.getD (σ i) 0
    samples := List.ofFn fun i => sim.samples.getD (σ i) [] }

lemma getD_ofFn {α : Type} {m : ℕ} (f : Fin m → α) {k : ℕ} (hk : k < m) (d : α) :
    (List.ofFn f).getD k d = f ⟨k, hk⟩ := by
  have hk' : k < (List.ofFn f).length := by simpa using hk
  rw [List.getD_eq_getElem _ _ hk', List.getElem_ofFn]

lemma perm_ofFn {α : Type} {m : ℕ} (f : Fin m → α) (σ : Equiv.Perm (Fin m)) :
    (List.ofFn fun i => f (σ i)).Perm (List.ofFn f) := by
  rw [List.ofFn_eq_map, List.ofFn_eq_map]
  have h1 : ((List.finRange m).map σ).Perm (List.finRange m) := by
    apply List.perm_of_nodup_nodup_toFinset_eq
    · exact (List.nodup_finRange m).map σ.injective
    · exact List.nodup_finRange m
    · ext x
      simp only [List.mem_toFinset, List.mem_map, List.mem_finRange, true_and, iff_true]
      exact ⟨σ.symm x, by simp⟩
  have h2 := h1.map f
  rw [List.map_map] at h2
  exact h2

lemma map_range_eq_ofFn {α : Type} (f : ℕ → α) (m : ℕ) :
    (List.range m).map f = List.ofFn (fun i : Fin m => f i.val) := by
  rw [List.ofFn_eq_map, ← List.map_coe_finRange, List.map_map]
  rfl

lemma map_range_perm_of_comp {α : Type} (m : ℕ) (σ : Equiv.Perm (Fin m))
    (g g' : ℕ → α) (h : ∀ i : Fin m, g' i.val = g ((σ i).val)) :
    ((List.range m).map g').Perm ((List.range m).map g) := by
  rw [map_range_eq_ofFn g' m, map_range_eq_ofFn g m,
    show (fun i : Fin m => g' i.val) = (fun i : Fin m => g ((σ i).val)) from funext h]
  exact perm_ofFn (fun i : Fin m => g i.val) σ

lemma list_eq_map_range_getD {α : Type} (l : List α) {m : ℕ} (h : l.length = m)
    (d : α) : l = (List.range m).map (fun k => l.getD k d) := by
  apply List.ext_getElem
  · simp [h]
  · intro i h1 h2
    rw [List.getElem_map, List.getElem_range, List.getD_eq_getElem _ _ h1]

lemma stanSum_perm {xs ys : List DV} (h : xs.Perm ys) : stanSum xs = stanSum ys := by
  rw [stanSum_eq_sum, stanSum_eq_sum, h.sum_eq]

lemma stanMean_perm {xs ys : List DV} (h : xs.Perm ys) : stanMean xs = stanMean ys := by
  rw [stanMean, stanMean, stanSum_perm h, h.length_eq]

lemma stanVariance_perm {xs ys : List DV} (h : xs.Perm ys) :
    stanVariance xs = stanVariance ys := by
  rw [stanVariance, stanVariance, h.length_eq, stanMean_perm h]
  congr 1
  exact stanSum_perm (h.map _)

/-- Claim C8: `effective_sample_size` is invariant under any permutation of
the chain indices, applied consistently to the samples, `n_save` and
`warmup2` entries. -/
theorem c8_chain_permutation_invariance {sim : Sim} {n : ℕ} (hv : sim.Valid n)
    (σ : Equiv.Perm (Fin sim.chains)) :
    effective_sample_size (permSim sim σ) n = effective_sample_size sim n := by
  have hsamp : ∀ i : Fin sim.chains,
      (permSim sim σ).samples.getD i.val [] = sim.samples.getD (σ i).val [] := by
    intro i
    show (List.ofFn fun j => sim.samples.getD (σ j) []).getD i.val [] = _
    rw [getD_ofFn _ i.isLt]
  have hwarm : ∀ i : Fin sim.chains,
      (permSim sim σ).warmup2.getD i.val 0 = sim.warmup2.getD (σ i).val 0 := by
    intro i
    show (List.ofFn fun j => sim.warmup2.getD (σ j) 0).getD i.val 0 = _
    rw [getD_ofFn _ i.isLt]
  have hkept : ∀ i : Fin sim.chains,
      get_kept_samples (permSim sim σ) i.val n = get_kept_samples sim ((σ i).val) n := by
    intro i
    rw [get_kept_samples, get_kept_samples, hsamp i, hwarm i]
  have hmean : ∀ i : Fin sim.chains,
      get_chain_mean (permSim sim σ) i.val n = get_chain_mean sim ((σ i).val) n := by
    intro i
    rw [get_chain_mean, get_chain_mean, hsamp i, hwarm i]
  have hnskD : ∀ i : Fin sim.chains,
      (ns_kept (permSim sim σ)).getD i.val 0 = (ns_kept sim).getD ((σ i).val) 0 := by
    intro i
    show (List.zipWith _ (List.ofFn fun j => sim.n_save.getD (σ j) 0)
      (List.ofFn fun j => sim.warmup2.getD (σ j) 0)).getD i.val 0 = _
    rw [getD_zipWith _ _ _ (by simpa using i.isLt) (by simpa using i.isLt) 0 0 0,
      getD_ofFn _ i.isLt, getD_ofFn _ i.isLt, ns_kept_getD hv (σ i).isLt]
  have hnsk_perm : (ns_kept (permSim sim σ)).Perm (ns_kept sim) := by
    have hl1 : (ns_kept (permSim sim σ)).length = sim.chains := by
      rw [ns_kept, List.length_zipWith]
      simp [permSim]
    have hl2 := ns_kept_length hv
    rw [list_eq_map_range_getD _ hl1 0, list_eq_map_range_getD _ hl2 0]
    exact map_range_perm_of_comp sim.chains σ _ _ (fun i => hnskD i)
  have hN : n_samplesESS (permSim sim σ) = n_samplesESS sim := listMin_perm hnsk_perm
  have hacovD : ∀ (i : Fin sim.chains) (t : ℕ),
      ((ess_acov (permSim sim σ) n).getD i.val []).getD t 0 =
        ((ess_acov sim n).getD ((σ i).val) []).getD t 0 := by
    intro i t
    rw [ess_acov_getD (show i.val < (permSim sim σ).chains from i.isLt),
      ess_acov_getD (σ i).isLt, hkept i]
  have hcv : (ess_chain_var (permSim sim σ) n).Perm (ess_chain_var sim n) := by
    rw [ess_chain_var, ess_chain_var]
    exact map_range_perm_of_comp sim.chains σ _ _
      (fun i => by rw [hacovD i 0, hnskD i])
  have hcm : (ess_chain_mean (permSim sim σ) n).Perm (ess_chain_mean sim n) := by
    rw [ess_chain_mean, ess_chain_mean]
    exact map_range_perm_of_comp sim.chains σ _ _ (fun i => hmean i)
  have hmv : ess_mean_var (permSim sim σ) n = ess_mean_var sim n := by
    rw [ess_mean_var, ess_mean_var, stanMean_perm hcv]
  have hvp : ess_var_plus (permSim sim σ) n = ess_var_plus sim n := by
    simp only [ess_var_plus]
    rw [hmv, hN, stanVariance_perm hcm]
    rfl
  have hch : (permSim sim σ).chains = sim.chains := rfl
  have hrho : ess_rho_hat (permSim sim σ) n = ess_rho_hat sim n := by
    funext t
    rw [ess_rho_hat, ess_rho_hat, hmv, hvp, hch]
    have hac : ((List.range sim.chains).map fun k =>
        DV.fin (((ess_acov (permSim sim σ) n).getD k []).getD t 0)).Perm
        ((List.range sim.chains).map fun k =>
          DV.fin (((ess_acov sim n).getD k []).getD t 0)) :=
      map_range_perm_of_comp sim.chains σ _ _ (fun i => by rw [hacovD i t])
    rw [stanMean_perm hac]
  have hscan : ess_rho_hat_t (permSim sim σ) n = ess_rho_hat_t sim n := by
    rw [ess_rho_hat_t, ess_rho_hat_t, hrho, hN]
  rw [effective_sample_size, effective_sample_size, hscan, hN, hch]

theorem c8_witness :
    simBDA.Valid 0 ∧
    effective_sample_size
        (permSim simBDA (Equiv.swap ⟨0, by decide⟩ ⟨1, by decide⟩)) 0 =
      effective_sample_size simBDA 0 :=
  ⟨by decide, c8_chain_permutation_invariance (by decide)
    (Equiv.swap ⟨0, by decide⟩ ⟨1, by decide⟩)⟩

end PyStanChains
